import Mathlib

/-!
Verification of the `LottieAnimation` rendering core
(`src/lottie_animation.cpp` / `src/lottie_animation.h`).

The C++ code is shallowly embedded: pure pixel passes become Lean
functions on lists of pixels, the stateful scheduler/worker pieces become
explicit state-passing step functions, machine floats become exact
rationals, and the cross-thread mailbox becomes a step relation over an
explicit state record driven by an interleaving of events.
-/

namespace Lottie

/-! ## Pixel converter: `_convert_argb_to_rgba_optimized`

The source buffer is a sequence of packed 32-bit ARGB pixels (value
`A<<24 | R<<16 | G<<8 | B`).  The scalar path emits, per pixel, the four
bytes `R, G, B, A`.  The SSSE3 path loads 4 pixels (16 little-endian
bytes) per lane and shuffles them with the mask
`[2,1,0,3, 6,5,4,7, 10,9,8,11, 14,13,12,15]`, then handles the tail
(`count % 4` pixels) with the same scalar loop. -/

/-- One pixel of the scalar fallback loop: bytes `R, G, B, A` extracted by
shifts, exactly as in the `for` loop at the end of
`_convert_argb_to_rgba_optimized`. -/
def scalarPixelBytes (p : ℕ) : List ℕ :=
  [(p >>> 16) % 256, (p >>> 8) % 256, p % 256, (p >>> 24) % 256]

/-- The pure scalar fallback path of `_convert_argb_to_rgba_optimized`. -/
def convert_argb_to_rgba_scalar (src : List ℕ) : List ℕ :=
  (src.map scalarPixelBytes).flatten

/-- The 4 bytes of a packed 32-bit pixel as they sit in (little-endian)
memory: `B, G, R, A`. -/
def leBytes (p : ℕ) : List ℕ :=
  [p % 256, (p >>> 8) % 256, (p >>> 16) % 256, (p >>> 24) % 256]

/-- The `_mm_shuffle_epi8` control mask used by the SSSE3 lane. -/
def shuffleMask : List ℕ :=
  [2, 1, 0, 3, 6, 5, 4, 7, 10, 9, 8, 11, 14, 13, 12, 15]

/-- `_mm_shuffle_epi8` on one 16-byte lane: output byte `k` is input byte
`shuffleMask[k]`. -/
def shuffle16 (lane : List ℕ) : List ℕ :=
  shuffleMask.map (fun k => lane.getD k 0)

/-- The vectorized path of `_convert_argb_to_rgba_optimized`: whole
16-byte lanes (4 pixels) through the byte shuffle, then the scalar
remainder loop on the `count % 4` tail pixels. -/
def convert_argb_to_rgba_simd : List ℕ → List ℕ
  | p0 :: p1 :: p2 :: p3 :: rest =>
      shuffle16 (leBytes p0 ++ leBytes p1 ++ leBytes p2 ++ leBytes p3)
        ++ convert_argb_to_rgba_simd rest
  | rest => (rest.map scalarPixelBytes).flatten

/-! ## Post-processing passes: `_unpremultiply_alpha_rgba` -/

/-- One RGBA8 pixel (each component a byte value). -/
structure Pix where
  r : ℕ
  g : ℕ
  b : ℕ
  a : ℕ
  deriving DecidableEq, Repr

/-- One color channel of the integer unpremultiply with rounding:
`min(255, (c*255 + a/2) / a)` (integer division). -/
def unpremChannel (c a : ℕ) : ℕ :=
  min 255 ((c * 255 + a / 2) / a)

/-- The per-pixel body of `_unpremultiply_alpha_rgba`: alpha 0 zeroes the
color channels, alpha 255 is left unchanged, otherwise each channel is
divided by alpha with rounding and clamped to 255. -/
def unpremultiplyPixel (p : Pix) : Pix :=
  if p.a = 0 then { p with r := 0, g := 0, b := 0 }
  else if p.a = 255 then p
  else { p with r := unpremChannel p.r p.a,
                g := unpremChannel p.g p.a,
                b := unpremChannel p.b p.a }

/-- `_unpremultiply_alpha_rgba`: the in-place loop over all `w*h` pixels,
modelled as a map over the pixel list. -/
def unpremultiply_alpha_rgba (buf : List Pix) : List Pix :=
  buf.map unpremultiplyPixel

/-! ## Theorems about the pixel converter -/

/-- One full SIMD lane produces exactly the bytes of the four scalar
iterations. -/
theorem shuffle_lane_eq_scalar (p0 p1 p2 p3 : ℕ) :
    shuffle16 (leBytes p0 ++ leBytes p1 ++ leBytes p2 ++ leBytes p3) =
      scalarPixelBytes p0 ++ scalarPixelBytes p1 ++ scalarPixelBytes p2 ++
        scalarPixelBytes p3 := rfl

/-- The scalar path emits 4 bytes per input pixel. -/
theorem scalar_length (src : List ℕ) :
    (convert_argb_to_rgba_scalar src).length = 4 * src.length := by
  induction src with
  | nil => rfl
  | cons p rest ih =>
      simp only [convert_argb_to_rgba_scalar, List.map_cons, List.flatten_cons,
        List.length_append, List.length_cons] at ih ⊢
      simp [scalarPixelBytes, ih]
      ring

/-- C5: For every pixel count `n` (including counts not divisible by the
4-pixel SIMD lane width) and every input buffer of `n` packed 32-bit ARGB
pixels, the vectorized path (SIMD lanes plus scalar remainder loop) and
the pure scalar fallback path of `_convert_argb_to_rgba_optimized`
produce byte-identical output of `n*4` bytes. -/
theorem convert_simd_eq_scalar (src : List ℕ) :
    convert_argb_to_rgba_simd src = convert_argb_to_rgba_scalar src ∧
      (convert_argb_to_rgba_simd src).length = 4 * src.length := by
  have main : ∀ s, convert_argb_to_rgba_simd s = convert_argb_to_rgba_scalar s := by
    intro s
    induction s using convert_argb_to_rgba_simd.induct with
    | case1 p0 p1 p2 p3 rest ih =>
        rw [convert_argb_to_rgba_simd, shuffle_lane_eq_scalar, ih]
        simp [convert_argb_to_rgba_scalar]
    | case2 rest h =>
        rw [convert_argb_to_rgba_simd.eq_def]
        split
        · rename_i p0 p1 p2 p3 r
          exact absurd rfl (h p0 p1 p2 p3 r)
        · rfl
  exact ⟨main src, by rw [main src]; exact scalar_length src⟩

/-! ## Theorems about `_unpremultiply_alpha_rgba` -/

/-- C6: For every pixel, unpremultiply leaves the pixel unchanged when
alpha is 255, zeroes the color channels when alpha is 0, and otherwise
replaces each color channel by `min 255 ((c*255 + a/2) / a)` (integer
division with rounding); consequently it is the identity — hence
idempotent — on buffers where every pixel has alpha 255, and it zeroes
RGB at every buffer position whose pixel has alpha 0. -/
theorem unpremultiply_spec :
    (∀ p : Pix, p.a = 255 → unpremultiplyPixel p = p) ∧
    (∀ p : Pix, p.a = 0 →
      unpremultiplyPixel p = { p with r := 0, g := 0, b := 0 }) ∧
    (∀ p : Pix, 0 < p.a → p.a < 255 →
      unpremultiplyPixel p =
        { p with r := min 255 ((p.r * 255 + p.a / 2) / p.a),
                 g := min 255 ((p.g * 255 + p.a / 2) / p.a),
                 b := min 255 ((p.b * 255 + p.a / 2) / p.a) }) ∧
    (∀ buf : List Pix, (∀ p ∈ buf, p.a = 255) →
      unpremultiply_alpha_rgba (unpremultiply_alpha_rgba buf) =
        unpremultiply_alpha_rgba buf ∧
      unpremultiply_alpha_rgba buf = buf) ∧
    (∀ (buf : List Pix) (i : ℕ) (p : Pix), buf[i]? = some p → p.a = 0 →
      (unpremultiply_alpha_rgba buf)[i]? =
        some { p with r := 0, g := 0, b := 0 }) := by
  refine ⟨?_, ?_, ?_, ?_, ?_⟩
  · intro p h
    have h0 : p.a ≠ 0 := by omega
    simp [unpremultiplyPixel, h, h0]
  · intro p h
    simp [unpremultiplyPixel, h]
  · intro p h1 h2
    have h0 : p.a ≠ 0 := by omega
    have h255 : p.a ≠ 255 := by omega
    simp [unpremultiplyPixel, h0, h255, unpremChannel]
  · have hid : ∀ l : List Pix, (∀ p ∈ l, p.a = 255) →
        unpremultiply_alpha_rgba l = l := by
      intro l
      induction l with
      | nil => intro _; rfl
      | cons p rest ih =>
          intro hl
          have ha := hl p (List.mem_cons_self p rest)
          have h0 : p.a ≠ 0 := by omega
          simp only [unpremultiply_alpha_rgba, List.map_cons] at ih ⊢
          rw [ih (fun q hq => hl q (List.mem_cons_of_mem p hq))]
          simp [unpremultiplyPixel, ha, h0]
    intro buf hall
    exact ⟨by rw [hid buf hall, hid buf hall], hid buf hall⟩
  · intro buf i p hp ha
    unfold unpremultiply_alpha_rgba
    rw [List.getElem?_map, hp]
    simp [unpremultiplyPixel, ha]

/-- Witness for `unpremultiply_spec` at concrete pixels and buffers. -/
theorem unpremultiply_spec_witness :
    unpremultiplyPixel ⟨10, 20, 30, 255⟩ = ⟨10, 20, 30, 255⟩ ∧
    unpremultiplyPixel ⟨10, 20, 30, 0⟩ = ⟨0, 0, 0, 0⟩ ∧
    unpremultiplyPixel ⟨64, 128, 200, 128⟩ = ⟨128, 255, 255, 128⟩ ∧
    unpremultiply_alpha_rgba [⟨1, 2, 3, 255⟩, ⟨4, 5, 6, 255⟩] =
      [⟨1, 2, 3, 255⟩, ⟨4, 5, 6, 255⟩] ∧
    (unpremultiply_alpha_rgba [⟨9, 9, 9, 0⟩])[0]? = some ⟨0, 0, 0, 0⟩ := by
  refine ⟨unpremultiply_spec.1 ⟨10, 20, 30, 255⟩ rfl,
    ?_, ?_, (unpremultiply_spec.2.2.2.1 _ ?_).2, ?_⟩
  · have := unpremultiply_spec.2.1 ⟨10, 20, 30, 0⟩ rfl
    simpa using this
  · have := unpremultiply_spec.2.2.1 ⟨64, 128, 200, 128⟩ (by decide) (by decide)
    simpa using this
  · intro p hp
    simp at hp
    rcases hp with h | h <;> simp [h]
  · have := unpremultiply_spec.2.2.2.2 [⟨9, 9, 9, 0⟩] 0 ⟨9, 9, 9, 0⟩ rfl rfl
    simpa using this

/-! ## `seek` / `set_frame`

`set_frame(frame)` clamps into `[0, total_frames-1]` with Godot's `CLAMP`
and renders, but only when `total_frames > 0`; `seek` forwards to
`set_frame`.  Frames are machine floats in the source; they are embedded
as exact rationals. -/

/-- Godot's `CLAMP` macro: `x < lo ? lo : (x > hi ? hi : x)`. -/
def CLAMP (x lo hi : ℚ) : ℚ :=
  if x < lo then lo else if x > hi then hi else x

/-- The playback-position state `set_frame` operates on. -/
structure SeekState where
  current_frame : ℚ
  total_frames : ℚ
  deriving DecidableEq, Repr

/-- `set_frame`: result state plus whether a render/redraw was triggered
(`_render_frame(); queue_redraw();` run only inside the
`total_frames > 0` branch). -/
def set_frame (f : ℚ) (s : SeekState) : SeekState × Bool :=
  if 0 < s.total_frames then
    ({ s with current_frame := CLAMP f 0 (s.total_frames - 1) }, true)
  else (s, false)

/-- `seek(frame)` simply calls `set_frame(frame)`. -/
def seek (f : ℚ) (s : SeekState) : SeekState × Bool :=
  set_frame f s

/-- C10: `seek` equals `set_frame`; with a loaded animation
(`total_frames > 0`, in fact `≥ 1` for a real animation) the new current
frame lies in `[0, total_frames-1]` and equals `f` whenever `f` is
already in that range; with `total_frames ≤ 0` the call leaves the state
untouched and triggers no render. -/
theorem seek_set_frame_spec :
    (∀ (f : ℚ) (s : SeekState), seek f s = set_frame f s) ∧
    (∀ (f : ℚ) (s : SeekState), 1 ≤ s.total_frames →
      0 ≤ (set_frame f s).1.current_frame ∧
        (set_frame f s).1.current_frame ≤ s.total_frames - 1) ∧
    (∀ (f : ℚ) (s : SeekState), 0 < s.total_frames →
      0 ≤ f → f ≤ s.total_frames - 1 →
      (set_frame f s).1.current_frame = f) ∧
    (∀ (f : ℚ) (s : SeekState), s.total_frames ≤ 0 →
      set_frame f s = (s, false)) := by
  refine ⟨fun f s => rfl, ?_, ?_, ?_⟩
  · intro f s h1
    have h0 : 0 < s.total_frames := by linarith
    simp only [set_frame, if_pos h0, CLAMP]
    split
    · constructor <;> linarith
    · split
      · constructor <;> linarith
      · constructor <;> linarith
  · intro f s h0 hlo hhi
    simp only [set_frame, if_pos h0, CLAMP]
    rw [if_neg (by linarith), if_neg (by linarith)]
  · intro f s h
    simp [set_frame, not_lt.mpr h]

/-- Witness for `seek_set_frame_spec`: concrete in-range seek, clamping
from both sides, and the unloaded no-op. -/
theorem seek_set_frame_spec_witness :
    seek 7 ⟨3, 10⟩ = set_frame 7 ⟨3, 10⟩ ∧
    (set_frame 42 ⟨3, 10⟩).1.current_frame ≤ (10 : ℚ) - 1 ∧
    (set_frame 7 ⟨3, 10⟩).1.current_frame = 7 ∧
    set_frame 7 ⟨3, 0⟩ = (⟨3, 0⟩, false) := by
  exact ⟨seek_set_frame_spec.1 7 ⟨3, 10⟩,
    (seek_set_frame_spec.2.1 42 ⟨3, 10⟩ (by norm_num)).2,
    seek_set_frame_spec.2.2.1 7 ⟨3, 10⟩ (by norm_num) (by norm_num) (by norm_num),
    seek_set_frame_spec.2.2.2 7 ⟨3, 0⟩ le_rfl⟩

/-! ## Dynamic resolution controller: `_update_resolution_from_scale`

The effective on-screen scale (`max_scale` in the source, derived from
the combined screen transform) is taken here as an input rational.  The
desired size is `ceil(fit_box * scale)` quantized up to the 16-px grid
(`(v+15) & ~15`) and clamped to `max_render_size`; if it differs from the
current `render_size` and a relative delta exceeds `resolution_threshold`
on either axis, `pending_resize`/`pending_target_size` are set. -/

/-- `(v + 15) & ~15`: round a non-negative size up to a multiple of 16. -/
def q16 (v : ℕ) : ℕ := (v + 15) / 16 * 16

/-- `(int)std::ceil(x)` for the non-negative sizes involved. -/
def ceilNat (x : ℚ) : ℕ := (⌈x⌉ : ℤ).toNat

/-- The state touched by `_update_resolution_from_scale`. -/
structure ResolutionState where
  render_size : ℕ × ℕ
  pending_resize : Bool
  pending_target_size : ℕ × ℕ
  deriving DecidableEq, Repr

/-- The desired internal raster size: `fit_box * scale`, rounded up,
quantized to the 16-px grid, clamped to `max_render`. -/
def desired_size (fit_box : ℕ × ℕ) (max_scale : ℚ) (max_render : ℕ × ℕ) :
    ℕ × ℕ :=
  (min (q16 (ceilNat ((fit_box.1 : ℚ) * max_scale))) max_render.1,
   min (q16 (ceilNat ((fit_box.2 : ℚ) * max_scale))) max_render.2)

/-- `_update_resolution_from_scale` (the part after computing
`max_scale`): no action when the desired size equals the current render
size, otherwise mark a resize pending when the relative delta
`|desired-current| / max(1,current)` exceeds the threshold on either
axis. -/
def update_resolution_from_scale (fit_box max_render : ℕ × ℕ)
    (threshold max_scale : ℚ) (s : ResolutionState) : ResolutionState :=
  let d := desired_size fit_box max_scale max_render
  if d = s.render_size then s
  else
    let dx : ℚ := |(d.1 : ℚ) - (s.render_size.1 : ℚ)| / max 1 (s.render_size.1 : ℚ)
    let dy : ℚ := |(d.2 : ℚ) - (s.render_size.2 : ℚ)| / max 1 (s.render_size.2 : ℚ)
    if dx > threshold ∨ dy > threshold then
      { s with pending_resize := true, pending_target_size := d }
    else s

/-- C8: the desired size is quantized up to a multiple of 16 and clamped;
equality with the current render size causes no state change; otherwise
(starting from no pending resize) `pending_resize` ends true iff the
relative delta exceeds the threshold on some axis.  Concretely:
`boxSize=(512,512)`, `scale=1` yields `(512,512)` (a multiple of 16,
`≥ 512` on each axis); `scale=0.3` from current `512×512` sets
`pending_resize` with target `(160,160)`; `scale=1.03` produces a
`16/512 ≈ 3%` delta and leaves the state untouched. -/
theorem update_resolution_spec :
    (∀ v : ℕ, 16 ∣ q16 v ∧ v ≤ q16 v) ∧
    (∀ (fb mr : ℕ × ℕ) (t sc : ℚ) (s : ResolutionState),
      desired_size fb sc mr = s.render_size →
      update_resolution_from_scale fb mr t sc s = s) ∧
    (∀ (fb mr : ℕ × ℕ) (t sc : ℚ) (s : ResolutionState),
      s.pending_resize = false →
      ((update_resolution_from_scale fb mr t sc s).pending_resize = true ↔
        (desired_size fb sc mr ≠ s.render_size ∧
          (|((desired_size fb sc mr).1 : ℚ) - (s.render_size.1 : ℚ)| /
              max 1 (s.render_size.1 : ℚ) > t ∨
           |((desired_size fb sc mr).2 : ℚ) - (s.render_size.2 : ℚ)| /
              max 1 (s.render_size.2 : ℚ) > t)))) ∧
    desired_size (512, 512) 1 (4096, 4096) = (512, 512) ∧
    (update_resolution_from_scale (512, 512) (4096, 4096) (15/100) (3/10)
        ⟨(512, 512), false, (0, 0)⟩ =
      ⟨(512, 512), true, (160, 160)⟩) ∧
    (update_resolution_from_scale (512, 512) (4096, 4096) (15/100) (103/100)
        ⟨(512, 512), false, (0, 0)⟩ =
      ⟨(512, 512), false, (0, 0)⟩) := by
  have ht512 : Int.toNat 512 = 512 := rfl
  have ht154 : Int.toNat 154 = 154 := rfl
  have ht528 : Int.toNat 528 = 528 := rfl
  have hd1 : desired_size (512, 512) 1 (4096, 4096) = (512, 512) := by
    norm_num [desired_size, ceilNat, q16, ht512]
  have hc2 : (⌈(768 / 5 : ℚ)⌉ : ℤ) = 154 := by
    rw [Int.ceil_eq_iff]
    norm_num
  have hd2 : desired_size (512, 512) (3/10) (4096, 4096) = (160, 160) := by
    norm_num [desired_size, ceilNat, q16, hc2, ht154]
  have hc3 : (⌈(13184 / 25 : ℚ)⌉ : ℤ) = 528 := by
    rw [Int.ceil_eq_iff]
    norm_num
  have hd3 : desired_size (512, 512) (103/100) (4096, 4096) = (528, 528) := by
    norm_num [desired_size, ceilNat, q16, hc3, ht528]
  refine ⟨?_, ?_, ?_, hd1, ?_, ?_⟩
  · intro v
    refine ⟨⟨(v + 15) / 16, by rw [q16, Nat.mul_comm]⟩, ?_⟩
    have h : v + 15 < (v + 15) / 16 * 16 + 16 := Nat.lt_div_mul_add (by norm_num)
    have h2 : q16 v = (v + 15) / 16 * 16 := rfl
    omega
  · intro fb mr t sc s h
    simp [update_resolution_from_scale, h]
  · intro fb mr t sc s hp
    by_cases heq : desired_size fb sc mr = s.render_size
    · simp [update_resolution_from_scale, heq, hp]
    · by_cases hcond :
        (|((desired_size fb sc mr).1 : ℚ) - (s.render_size.1 : ℚ)| /
            max 1 (s.render_size.1 : ℚ) > t ∨
         |((desired_size fb sc mr).2 : ℚ) - (s.render_size.2 : ℚ)| /
            max 1 (s.render_size.2 : ℚ) > t)
      · simp [update_resolution_from_scale, heq, hcond]
      · simp [update_resolution_from_scale, heq, hcond, hp]
  · rw [update_resolution_from_scale]
    simp only [hd2]
    norm_num
  · rw [update_resolution_from_scale]
    simp only [hd3]
    norm_num

/-- Witness for `update_resolution_spec` at the concrete spec scenario. -/
theorem update_resolution_spec_witness :
    update_resolution_from_scale (512, 512) (4096, 4096) 1 1
        ⟨(512, 512), false, (0, 0)⟩ = ⟨(512, 512), false, (0, 0)⟩ ∧
    ((update_resolution_from_scale (512, 512) (4096, 4096) (15/100) (3/10)
        ⟨(512, 512), false, (0, 0)⟩).pending_resize = true ↔
      (desired_size (512, 512) (3/10) (4096, 4096) ≠ (512, 512) ∧
        (|((desired_size (512, 512) (3/10) (4096, 4096)).1 : ℚ) - ((512 : ℕ) : ℚ)| /
            max 1 ((512 : ℕ) : ℚ) > 15/100 ∨
         |((desired_size (512, 512) (3/10) (4096, 4096)).2 : ℚ) - ((512 : ℕ) : ℚ)| /
            max 1 ((512 : ℕ) : ℚ) > 15/100))) := by
  exact ⟨update_resolution_spec.2.1 (512, 512) (4096, 4096) 1 1
      ⟨(512, 512), false, (0, 0)⟩
      (by
        have ht : Int.toNat 512 = 512 := rfl
        norm_num [desired_size, ceilNat, q16, ht]),
    update_resolution_spec.2.2.1 (512, 512) (4096, 4096) (15/100) (3/10)
      ⟨(512, 512), false, (0, 0)⟩ rfl⟩

/-! ## Resize rate limiting in `_process`

Per tick `_process` first advances `_elapsed_time` by `delta`, lets the
dynamic-resolution controller possibly set `pending_resize` (modelled by
the `trigger` input), then applies a pending resize only when either no
resize was ever applied (`_last_resize_at < 0`, sentinel `-1`) or at
least `_min_resize_interval` of elapsed tick time has passed since the
last application; otherwise the resize stays pending for the next tick. -/

/-- The `_process` state involved in resize rate limiting. -/
structure ResizeGate where
  elapsed : ℚ
  last_resize_at : ℚ
  pending_resize : Bool
  deriving DecidableEq, Repr

/-- One `_process` tick restricted to the resize-gating logic; returns
the new state and `applied_resize`.  `trigger` is whether this tick's
`_update_resolution_from_scale` marked a resize pending. -/
def process_resize_gate (interval delta : ℚ) (trigger : Bool)
    (s : ResizeGate) : ResizeGate × Bool :=
  let e := s.elapsed + delta
  let pending := s.pending_resize || trigger
  if pending then
    if 0 ≤ s.last_resize_at ∧ e - s.last_resize_at < interval then
      ({ elapsed := e, last_resize_at := s.last_resize_at,
         pending_resize := true }, false)
    else
      ({ elapsed := e, last_resize_at := e, pending_resize := false }, true)
  else
    ({ s with elapsed := e }, false)

/-- A run of ticks through the resize gate, counting applied resizes. -/
def run_resize_gate (interval : ℚ) : List (ℚ × Bool) → ResizeGate → ResizeGate × ℕ
  | [], s => (s, 0)
  | (d, tr) :: rest, s =>
      let (s', applied) := process_resize_gate interval d tr s
      let (s'', n) := run_resize_gate interval rest s'
      (s'', (if applied then 1 else 0) + n)

/-- C9: a tick that arrives before the minimum interval has elapsed since
the last applied resize skips the reallocation and keeps the resize
pending; a tick at or past the interval (or before any resize was ever
applied) applies it, stamps the application time, and clears the pending
flag; consequently two resize triggers within one interval, starting from
a fresh state, produce exactly one applied reallocation with the second
still pending. -/
theorem resize_rate_limit_spec :
    (∀ (interval delta : ℚ) (trigger : Bool) (s : ResizeGate),
      (s.pending_resize || trigger) = true →
      0 ≤ s.last_resize_at →
      s.elapsed + delta - s.last_resize_at < interval →
      process_resize_gate interval delta trigger s =
        ({ elapsed := s.elapsed + delta, last_resize_at := s.last_resize_at,
           pending_resize := true }, false)) ∧
    (∀ (interval delta : ℚ) (trigger : Bool) (s : ResizeGate),
      (s.pending_resize || trigger) = true →
      (s.last_resize_at < 0 ∨ interval ≤ s.elapsed + delta - s.last_resize_at) →
      process_resize_gate interval delta trigger s =
        ({ elapsed := s.elapsed + delta, last_resize_at := s.elapsed + delta,
           pending_resize := false }, true)) ∧
    (∀ (interval d1 d2 : ℚ),
      0 ≤ d1 → d2 < interval →
      (run_resize_gate interval [(d1, true), (d2, true)] ⟨0, -1, false⟩).2 = 1 ∧
      (run_resize_gate interval [(d1, true), (d2, true)] ⟨0, -1, false⟩).1.pending_resize
        = true) := by
  refine ⟨?_, ?_, ?_⟩
  · intro interval delta trigger s hp hge hlt
    simp only [process_resize_gate, hp, if_pos (⟨hge, hlt⟩ : _ ∧ _)]
    simp
  · intro interval delta trigger s hp hcond
    have hneg : ¬(0 ≤ s.last_resize_at ∧
        s.elapsed + delta - s.last_resize_at < interval) := by
      rcases hcond with h | h
      · exact fun ⟨h1, _⟩ => absurd h (not_lt.mpr h1)
      · exact fun ⟨_, h2⟩ => absurd h (not_le.mpr h2)
    simp only [process_resize_gate, hp, if_neg hneg]
    simp
  · intro interval d1 d2 h1 h2
    have step1 : process_resize_gate interval d1 true ⟨0, -1, false⟩ =
        (⟨d1, d1, false⟩, true) := by
      have hneg : ¬((0 : ℚ) ≤ -1 ∧ (0 : ℚ) + d1 - -1 < interval) := by
        rintro ⟨h, -⟩
        norm_num at h
      simp only [process_resize_gate, if_neg hneg]
      norm_num
    have step2 : process_resize_gate interval d2 true ⟨d1, d1, false⟩ =
        (⟨d1 + d2, d1, true⟩, false) := by
      have hpos : (0 : ℚ) ≤ d1 ∧ d1 + d2 - d1 < interval := ⟨h1, by linarith⟩
      simp only [process_resize_gate, if_pos hpos]
      simp
    simp only [run_resize_gate, step1, step2]
    norm_num

/-- Witness for `resize_rate_limit_spec`: interval `1/10` (100 ms of
tick time), two triggering ticks of 60 ms each. -/
theorem resize_rate_limit_spec_witness :
    process_resize_gate (1/10) (3/50) true ⟨3/50, 3/50, true⟩ =
      ({ elapsed := 3/50 + 3/50, last_resize_at := 3/50,
         pending_resize := true }, false) ∧
    process_resize_gate (1/10) (3/50) true ⟨0, -1, false⟩ =
      ({ elapsed := 0 + 3/50, last_resize_at := 0 + 3/50,
         pending_resize := false }, true) ∧
    (run_resize_gate (1/10) [(3/50, true), (3/50, true)] ⟨0, -1, false⟩).2 = 1 := by
  refine ⟨?_, ?_, ?_⟩
  · exact resize_rate_limit_spec.1 (1/10) (3/50) true ⟨3/50, 3/50, true⟩ rfl
      (by norm_num) (by norm_num)
  · exact resize_rate_limit_spec.2.1 (1/10) (3/50) true ⟨0, -1, false⟩ rfl
      (Or.inl (by norm_num))
  · exact (resize_rate_limit_spec.2.2 (1/10) (3/50) (3/50)
      (by norm_num) (by norm_num)).1

/-! ## Playback advance: `_update_animation`

Per tick the playing head advances by
`(total_frames / duration) * delta * speed`; reaching the end either
wraps with `fmod` (looping) or clamps to `total_frames - 1`, stops, and
emits `animation_finished`; `frame_changed` fires when the integer part
of the frame changes.  Floats are embedded as rationals; the C `(int)`
cast and `fmod` truncate toward zero, which `Int.tdiv` models exactly. -/

/-- The notifications the node can emit. -/
inductive Signal where
  | animation_finished
  | frame_changed (f : ℚ)
  | animation_loaded (ok : Bool)
  deriving DecidableEq, Repr

/-- C's `(int)` cast applied to a rational: truncation toward zero. -/
def ctrunc (x : ℚ) : ℤ := Int.tdiv x.num x.den

/-- C's `fmod(x, y)`: `x - y * trunc(x/y)`. -/
def qfmod (x y : ℚ) : ℚ := x - y * (ctrunc (x / y) : ℚ)

/-- The playback state `_update_animation` reads and writes
(`animation != nullptr` becomes the `has_animation` flag). -/
structure AnimState where
  playing : Bool
  looping : Bool
  has_animation : Bool
  speed : ℚ
  current_frame : ℚ
  total_frames : ℚ
  duration : ℚ
  deriving DecidableEq, Repr

/-- `_update_animation(delta)`: new state plus emitted signals, in
emission order. -/
def update_animation (delta : ℚ) (s : AnimState) : AnimState × List Signal :=
  if s.playing = false ∨ s.has_animation = false ∨ s.total_frames ≤ 0 then (s, [])
  else
    let prev := s.current_frame
    let cf := prev + s.total_frames / s.duration * delta * s.speed
    let step :=
      if cf ≥ s.total_frames then
        if s.looping = true then
          ({ s with current_frame := qfmod cf s.total_frames }, ([] : List Signal))
        else
          ({ s with current_frame := s.total_frames - 1, playing := false },
            [Signal.animation_finished])
      else ({ s with current_frame := cf }, [])
    (step.1,
      if ctrunc prev ≠ ctrunc step.1.current_frame then
        step.2 ++ [Signal.frame_changed step.1.current_frame]
      else step.2)

/-- `frame_changed` is never counted as `animation_finished`. -/
theorem count_aux1 (f : ℚ) :
    List.count Signal.animation_finished [Signal.frame_changed f] = 0 := rfl

/-- The state part of a tick: advance, then wrap (looping) or
clamp-and-stop. -/
theorem update_animation_fst (d : ℚ) (s : AnimState)
    (hg : ¬(s.playing = false ∨ s.has_animation = false ∨ s.total_frames ≤ 0)) :
    (update_animation d s).1 =
      (if s.current_frame + s.total_frames / s.duration * d * s.speed ≥ s.total_frames then
        if s.looping = true then
          { s with current_frame :=
              (qfmod (s.current_frame + s.total_frames / s.duration * d * s.speed) s.total_frames) }
        else { s with current_frame := s.total_frames - 1, playing := false }
      else { s with current_frame :=
              s.current_frame + s.total_frames / s.duration * d * s.speed }) := by
  simp only [update_animation, if_neg hg]
  simp only [apply_ite Prod.fst]

/-- `animation_finished` is emitted exactly on the tick that reaches the
end with looping disabled. -/
theorem update_animation_snd_count (d : ℚ) (s : AnimState) :
    (update_animation d s).2.count Signal.animation_finished =
      (if (s.playing = false ∨ s.has_animation = false ∨ s.total_frames ≤ 0) then 0
       else if s.current_frame + s.total_frames / s.duration * d * s.speed ≥
                s.total_frames ∧ s.looping = false then 1 else 0) := by
  by_cases hg : (s.playing = false ∨ s.has_animation = false ∨ s.total_frames ≤ 0)
  · rw [update_animation, if_pos hg, if_pos hg]
    rfl
  · rw [if_neg hg]
    simp only [update_animation, if_neg hg]
    rw [apply_ite (List.count Signal.animation_finished), List.count_append, count_aux1]
    by_cases hge : s.current_frame + s.total_frames / s.duration * d * s.speed ≥
        s.total_frames
    · by_cases hloop : s.looping = true
      · simp [hge, hloop]
      · simp only [if_pos hge, if_neg hloop,
          if_pos (⟨hge, by simpa using hloop⟩ :
            _ ∧ s.looping = false)]
        simp
    · simp only [if_neg hge]
      have hno : ¬(s.total_frames ≤
          s.current_frame + s.total_frames / s.duration * d * s.speed ∧
          s.looping = false) := by
        rintro ⟨h1, -⟩
        exact hge h1
      simp [hno]

/-- A run of `_process` ticks restricted to `_update_animation`, counting
emitted `animation_finished` notifications. -/
def run_ticks : List ℚ → AnimState → AnimState × ℕ
  | [], s => (s, 0)
  | d :: rest, s =>
      let step := update_animation d s
      let r := run_ticks rest step.1
      (r.1, step.2.count Signal.animation_finished + r.2)

/-- Truncation toward zero agrees with `⌊·⌋` on non-negative rationals. -/
theorem ctrunc_eq_floor {x : ℚ} (h : 0 ≤ x) : ctrunc x = ⌊x⌋ := by
  rw [ctrunc, Int.tdiv_eq_ediv (Rat.num_nonneg.mpr h) (Int.ofNat_le.mpr x.pos.le)]
  exact Rat.floor_def.symm

/-- `fmod` of non-negative arguments lands in `[0, y)`. -/
theorem qfmod_bounds {x y : ℚ} (hx : 0 ≤ x) (hy : 0 < y) :
    0 ≤ qfmod x y ∧ qfmod x y < y := by
  have hdiv : (0 : ℚ) ≤ x / y := div_nonneg hx hy.le
  have hfract : qfmod x y = y * Int.fract (x / y) := by
    rw [qfmod, ctrunc_eq_floor hdiv, Int.fract]
    field_simp
  constructor
  · rw [hfract]
    exact mul_nonneg hy.le (Int.fract_nonneg _)
  · rw [hfract]
    calc y * Int.fract (x / y) < y * 1 :=
          (mul_lt_mul_left hy).mpr (Int.fract_lt_one _)
    _ = y := mul_one y

/-- A stopped (or unloaded) node is left untouched by a tick. -/
theorem update_animation_stopped {d : ℚ} {s : AnimState}
    (h : s.playing = false ∨ s.has_animation = false ∨ s.total_frames ≤ 0) :
    update_animation d s = (s, []) := by
  rw [update_animation, if_pos h]

/-- A tick never changes the looping flag. -/
theorem update_animation_looping (d : ℚ) (s : AnimState) :
    (update_animation d s).1.looping = s.looping := by
  by_cases hg : (s.playing = false ∨ s.has_animation = false ∨ s.total_frames ≤ 0)
  · rw [update_animation_stopped hg]
  · rw [update_animation_fst d s hg]
    split
    · split <;> rfl
    · rfl

/-- A tick that emits `animation_finished` leaves the node stopped. -/
theorem update_animation_stops (d : ℚ) (s : AnimState)
    (h : (update_animation d s).2.count Signal.animation_finished = 1) :
    (update_animation d s).1.playing = false := by
  by_cases hg : (s.playing = false ∨ s.has_animation = false ∨ s.total_frames ≤ 0)
  · rw [update_animation_snd_count, if_pos hg] at h
    exact absurd h one_ne_zero.symm
  · rw [update_animation_snd_count, if_neg hg] at h
    rw [update_animation_fst d s hg]
    by_cases hc : (s.current_frame + s.total_frames / s.duration * d * s.speed ≥
        s.total_frames ∧ s.looping = false)
    · rw [if_pos hc.1, if_neg (by simp [hc.2])]
    · rw [if_neg hc] at h
      exact absurd h one_ne_zero.symm

/-- A run from a stopped node does nothing. -/
theorem run_ticks_stopped (ds : List ℚ) (s : AnimState)
    (h : s.playing = false) :
    run_ticks ds s = (s, 0) := by
  induction ds with
  | nil => rfl
  | cons d rest ih =>
      rw [run_ticks, update_animation_stopped (Or.inl h)]
      simp [ih]

/-- With looping disabled, a whole run emits `animation_finished` at most
once (after the first emission the node is stopped). -/
theorem run_ticks_finished_at_most_once (ds : List ℚ) (s : AnimState)
    (h : s.looping = false) :
    (run_ticks ds s).2 ≤ 1 := by
  induction ds generalizing s with
  | nil => exact Nat.zero_le 1
  | cons d rest ih =>
      rw [run_ticks]
      have hcnt : (update_animation d s).2.count Signal.animation_finished ≤ 1 := by
        rw [update_animation_snd_count]
        split
        · exact Nat.zero_le 1
        · split
          · exact le_rfl
          · exact Nat.zero_le 1
      rcases Nat.lt_or_ge ((update_animation d s).2.count Signal.animation_finished) 1
        with h0 | h1
      · have h0' : (update_animation d s).2.count Signal.animation_finished = 0 := by
          omega
        have hl : (update_animation d s).1.looping = false := by
          rw [update_animation_looping, h]
        simpa [h0'] using ih (update_animation d s).1 hl
      · have heq : (update_animation d s).2.count Signal.animation_finished = 1 := by
          omega
        have hstop := update_animation_stops d s heq
        rw [run_ticks_stopped rest _ hstop]
        simp [heq]

/-- C4: while playing with a loaded scene the frame advances by
`delta * speed * (totalFrames/duration)` per tick; reaching
`totalFrames` wraps via `fmod` into `[0, totalFrames)` when looping, and
otherwise clamps to `totalFrames - 1`, stops playback, and emits
`animation_finished` — at most once over any whole run with looping
disabled.  Concretely (spec scenario, `totalFrames = 100`,
`duration = 2`, `speed = 1`, ticks of `0.1 s`): after `1.0 s` the frame
is 50 and nothing has finished; after `2.1 s` the frame is clamped to 99
and `animation_finished` was emitted exactly once. -/
theorem update_animation_spec :
    (∀ (d : ℚ) (s : AnimState), s.playing = true → s.has_animation = true →
      0 < s.total_frames →
      (s.current_frame + s.total_frames / s.duration * d * s.speed <
          s.total_frames →
        (update_animation d s).1.current_frame =
          s.current_frame + s.total_frames / s.duration * d * s.speed ∧
        (update_animation d s).1.playing = true ∧
        (update_animation d s).2.count Signal.animation_finished = 0) ∧
      (s.total_frames ≤
          s.current_frame + s.total_frames / s.duration * d * s.speed →
        s.looping = true →
        (update_animation d s).1.current_frame =
          qfmod (s.current_frame + s.total_frames / s.duration * d * s.speed)
            s.total_frames ∧
        (0 ≤ s.current_frame →
          0 ≤ (update_animation d s).1.current_frame ∧
          (update_animation d s).1.current_frame < s.total_frames)) ∧
      (s.total_frames ≤
          s.current_frame + s.total_frames / s.duration * d * s.speed →
        s.looping = false →
        (update_animation d s).1.current_frame = s.total_frames - 1 ∧
        (update_animation d s).1.playing = false ∧
        (update_animation d s).2.count Signal.animation_finished = 1)) ∧
    (∀ (ds : List ℚ) (s : AnimState), s.looping = false →
      (run_ticks ds s).2 ≤ 1) ∧
    (run_ticks (List.replicate 10 (1/10)) ⟨true, false, true, 1, 0, 100, 2⟩).2
        = 0 ∧
    (run_ticks (List.replicate 10 (1/10))
        ⟨true, false, true, 1, 0, 100, 2⟩).1.current_frame = 50 ∧
    (run_ticks (List.replicate 21 (1/10)) ⟨true, false, true, 1, 0, 100, 2⟩).2
        = 1 ∧
    (run_ticks (List.replicate 21 (1/10))
        ⟨true, false, true, 1, 0, 100, 2⟩).1.current_frame = 99 := by
  refine ⟨?_, run_ticks_finished_at_most_once, ?_⟩
  · intro d s hp ha htf
    have hg : ¬(s.playing = false ∨ s.has_animation = false ∨
        s.total_frames ≤ 0) := by
      push_neg
      exact ⟨by simp [hp], by simp [ha], htf⟩
    refine ⟨?_, ?_, ?_⟩
    · intro hlt
      rw [update_animation_fst d s hg, if_neg (not_le.mpr hlt),
        update_animation_snd_count, if_neg hg,
        if_neg (fun h => absurd h.1 (not_le.mpr hlt))]
      exact ⟨rfl, hp, rfl⟩
    · intro hge hloop
      have hfr : (update_animation d s).1.current_frame =
          qfmod (s.current_frame + s.total_frames / s.duration * d * s.speed)
            s.total_frames := by
        rw [update_animation_fst d s hg, if_pos hge, if_pos hloop]
      refine ⟨hfr, ?_⟩
      intro hcf0
      have hx0 : 0 ≤ s.current_frame + s.total_frames / s.duration * d * s.speed :=
        le_trans htf.le hge
      rw [hfr]
      exact qfmod_bounds hx0 htf
    · intro hge hloop
      rw [update_animation_fst d s hg, if_pos hge, if_neg (by simp [hloop]),
        update_animation_snd_count, if_neg hg, if_pos ⟨hge, hloop⟩]
      exact ⟨rfl, rfl, rfl⟩
  · norm_num [run_ticks, update_animation, ctrunc, Int.tdiv_eq_ediv,
      List.count_cons, List.replicate]
    all_goals decide

/-- Witness for `update_animation_spec`: one mid-animation tick, one
wrapping tick, one clamping tick. -/
theorem update_animation_spec_witness :
    ((update_animation (1/10) ⟨true, false, true, 1, 0, 100, 2⟩).1.current_frame
        = 0 + 100 / 2 * (1/10) * 1 ∧
      (update_animation (1/10) ⟨true, false, true, 1, 0, 100, 2⟩).1.playing
        = true ∧
      (update_animation (1/10)
        ⟨true, false, true, 1, 0, 100, 2⟩).2.count Signal.animation_finished
        = 0) ∧
    (update_animation (1/10) ⟨true, true, true, 1, 98, 100, 2⟩).1.current_frame
        = qfmod (98 + 100 / 2 * (1/10) * 1) 100 ∧
    ((update_animation (1/10) ⟨true, false, true, 1, 98, 100, 2⟩).1.current_frame
        = 100 - 1 ∧
      (update_animation (1/10) ⟨true, false, true, 1, 98, 100, 2⟩).1.playing
        = false ∧
      (update_animation (1/10)
        ⟨true, false, true, 1, 98, 100, 2⟩).2.count Signal.animation_finished
        = 1) ∧
    (run_ticks [1/10, 1/10] ⟨true, false, true, 1, 98, 100, 2⟩).2 ≤ 1 := by
  refine ⟨(update_animation_spec.1 (1/10) ⟨true, false, true, 1, 0, 100, 2⟩
      rfl rfl (by norm_num)).1 (by norm_num), ?_, ?_, ?_⟩
  · exact ((update_animation_spec.1 (1/10) ⟨true, true, true, 1, 98, 100, 2⟩
      rfl rfl (by norm_num)).2.1 (by norm_num) rfl).1
  · exact (update_animation_spec.1 (1/10) ⟨true, false, true, 1, 98, 100, 2⟩
      rfl rfl (by norm_num)).2.2 (by norm_num) rfl
  · exact update_animation_spec.2.1 [1/10, 1/10]
      ⟨true, false, true, 1, 98, 100, 2⟩ rfl

/-! ## Finished-frame mailbox: worker publish and per-tick drain

The `latest_frame` slot is guarded by `frame_mutex`; the worker's publish
(end of `_worker_loop`) and the consumer's drain (in `_process`) each
hold the lock, so any concurrent execution is an interleaving of these
two atomic steps. -/


/-- The `FrameResult` mailbox slot (pixel bytes, size, monotonic id,
ready flag). -/
structure FrameResult where
  rgba : List ℕ
  w : ℕ
  h : ℕ
  id : ℕ
  ready : Bool
  deriving DecidableEq, Repr

/-- The shared state around the finished-frame slot: the slot itself,
the worker's id counter (initially 1) and the consumer's cursor
(initially 0). -/
structure MailboxState where
  latest_frame : FrameResult
  next_frame_id : ℕ
  last_consumed_id : ℕ
  deriving DecidableEq, Repr

/-- The initial mailbox state, from the field initializers in
`lottie_animation.h`. -/
def initMailbox : MailboxState :=
  { latest_frame := { rgba := [], w := 0, h := 0, id := 0, ready := false },
    next_frame_id := 1, last_consumed_id := 0 }

/-- The worker's publish step (under `frame_mutex`): overwrite the slot,
stamp it with `next_frame_id++`, set `ready`. -/
def worker_publish (rgba : List ℕ) (w h : ℕ) (s : MailboxState) : MailboxState :=
  { latest_frame := { rgba := rgba, w := w, h := h, id := s.next_frame_id, ready := true },
    next_frame_id := s.next_frame_id + 1,
    last_consumed_id := s.last_consumed_id }

/-- The per-tick drain in `_process` (under `frame_mutex`): apply the
slot only when ready and strictly newer than `last_consumed_id`; a
size-mismatched frame is dropped (ready cleared, cursor untouched).
Returns the applied frame id, if any. -/
def consume_frame (render_size : ℕ × ℕ) (s : MailboxState) :
    MailboxState × Option ℕ :=
  if s.latest_frame.ready = true ∧ s.last_consumed_id < s.latest_frame.id then
    if s.latest_frame.w = render_size.1 ∧ s.latest_frame.h = render_size.2 then
      ({ s with last_consumed_id := s.latest_frame.id,
                latest_frame := { s.latest_frame with ready := false } },
        some s.latest_frame.id)
    else
      ({ s with latest_frame := { s.latest_frame with ready := false } }, none)
  else (s, none)

/-- An interleaving event on the mailbox: a worker publish or a
main-thread drain.  The mutex makes each event atomic. -/
inductive MEvent where
  | publish (rgba : List ℕ) (w h : ℕ)
  | consume (render_size : ℕ × ℕ)
  deriving DecidableEq, Repr

/-- One atomic event; the trace records published ids (`Sum.inl`) and
applied ids (`Sum.inr`). -/
def mstep : MEvent → MailboxState → MailboxState × List (ℕ ⊕ ℕ)
  | .publish rgba w h, s => (worker_publish rgba w h s, [Sum.inl s.next_frame_id])
  | .consume rs, s =>
      let r := consume_frame rs s
      (r.1, match r.2 with | some i => [Sum.inr i] | none => [])

/-- Run an arbitrary interleaving of publishes and drains. -/
def mrun : List MEvent → MailboxState → MailboxState × List (ℕ ⊕ ℕ)
  | [], s => (s, [])
  | e :: rest, s =>
      let r := mstep e s
      let r2 := mrun rest r.1
      (r2.1, r.2 ++ r2.2)

/-- The published ids of a trace. -/
def pubIds (l : List (ℕ ⊕ ℕ)) : List ℕ :=
  l.filterMap (fun x => match x with | .inl i => some i | .inr _ => none)

/-- The applied (consumed-and-copied) ids of a trace. -/
def appIds (l : List (ℕ ⊕ ℕ)) : List ℕ :=
  l.filterMap (fun x => match x with | .inr i => some i | .inl _ => none)

/-- Mailbox invariant: slot id and consumer cursor stay below the id
counter. -/
def MailboxInv (s : MailboxState) : Prop :=
  s.latest_frame.id < s.next_frame_id ∧ s.last_consumed_id < s.next_frame_id

/-- A drain never touches the id counter or the slot id, and either
applies nothing or applies exactly the slot id, strictly above the
cursor, advancing the cursor to it. -/
theorem consume_frame_cases (rs : ℕ × ℕ) (s : MailboxState) :
    ((consume_frame rs s).1.next_frame_id = s.next_frame_id ∧
     (consume_frame rs s).1.latest_frame.id = s.latest_frame.id) ∧
    ((consume_frame rs s).2 = none ∧
        (consume_frame rs s).1.last_consumed_id = s.last_consumed_id ∨
     (consume_frame rs s).2 = some s.latest_frame.id ∧
        s.last_consumed_id < s.latest_frame.id ∧
        (consume_frame rs s).1.last_consumed_id = s.latest_frame.id) := by
  rw [consume_frame]
  split
  · rename_i h
    split
    · exact ⟨⟨rfl, rfl⟩, Or.inr ⟨rfl, h.2, rfl⟩⟩
    · exact ⟨⟨rfl, rfl⟩, Or.inl ⟨rfl, rfl⟩⟩
  · exact ⟨⟨rfl, rfl⟩, Or.inl ⟨rfl, rfl⟩⟩

/-- Every event preserves the mailbox invariant. -/
theorem mstep_inv (e : MEvent) (s : MailboxState) (h : MailboxInv s) :
    MailboxInv (mstep e s).1 := by
  cases e with
  | publish rgba w hh =>
      exact ⟨Nat.lt_succ_self _, Nat.lt_succ_of_lt h.2⟩
  | consume rs =>
      have hc := consume_frame_cases rs s
      constructor
      · rw [mstep]
        simp only []
        rw [hc.1.2, hc.1.1]
        exact h.1
      · rw [mstep]
        simp only []
        rw [hc.1.1]
        rcases hc.2 with ⟨-, hl⟩ | ⟨-, -, hl⟩
        · rw [hl]; exact h.2
        · rw [hl]; exact h.1

/-- Every id published during a run is at least the starting counter. -/
theorem mrun_pub_lb (events : List MEvent) (s : MailboxState) :
    ∀ i ∈ pubIds (mrun events s).2, s.next_frame_id ≤ i := by
  induction events generalizing s with
  | nil => intro i hi; simp [mrun, pubIds] at hi
  | cons e rest ih =>
      intro i hi
      rw [mrun] at hi
      simp only [pubIds, List.filterMap_append, List.mem_append] at hi
      cases e with
      | publish rgba w h =>
          rcases hi with hi | hi
          · simp [mstep, pubIds] at hi
            omega
          · have := ih (mstep (.publish rgba w h) s).1 i hi
            simp only [mstep, worker_publish] at this
            omega
      | consume rs =>
          rcases hi with hi | hi
          · rcases (consume_frame_cases rs s).2 with ⟨h2, -⟩ | ⟨h2, -, -⟩ <;>
              simp [mstep, h2, pubIds] at hi
          · have := ih (mstep (.consume rs) s).1 i hi
            rw [mstep] at this
            simp only [] at this
            rw [(consume_frame_cases rs s).1.1] at this
            exact this

/-- Published ids are strictly increasing along any interleaving. -/
theorem mrun_pub_sorted (events : List MEvent) (s : MailboxState) :
    List.Pairwise (· < ·) (pubIds (mrun events s).2) := by
  induction events generalizing s with
  | nil => simp [mrun, pubIds]
  | cons e rest ih =>
      rw [mrun]
      simp only [pubIds, List.filterMap_append]
      cases e with
      | publish rgba w h =>
          rw [List.pairwise_append]
          refine ⟨by simp [mstep, pubIds], ih _, ?_⟩
          intro a ha b hb
          simp [mstep, pubIds] at ha
          subst ha
          have := mrun_pub_lb rest (mstep (.publish rgba w h) s).1 b hb
          simp only [mstep, worker_publish] at this
          omega
      | consume rs =>
          rcases (consume_frame_cases rs s).2 with ⟨h2, -⟩ | ⟨h2, -, -⟩ <;>
            simp only [mstep, h2] <;> simpa [pubIds] using ih _

/-- Every id applied during a run is strictly above the starting
cursor. -/
theorem mrun_app_lb (events : List MEvent) (s : MailboxState) (hinv : MailboxInv s) :
    ∀ i ∈ appIds (mrun events s).2, s.last_consumed_id < i := by
  induction events generalizing s with
  | nil => intro i hi; simp [mrun, appIds] at hi
  | cons e rest ih =>
      intro i hi
      rw [mrun] at hi
      simp only [appIds, List.filterMap_append, List.mem_append] at hi
      have hinv' := mstep_inv e s hinv
      cases e with
      | publish rgba w h =>
          rcases hi with hi | hi
          · simp [mstep, appIds] at hi
          · have := ih (mstep (.publish rgba w h) s).1 hinv' i hi
            simpa only [mstep, worker_publish] using this
      | consume rs =>
          have hc := consume_frame_cases rs s
          rcases hc.2 with ⟨h2, hl⟩ | ⟨h2, hgt, hl⟩
          · rcases hi with hi | hi
            · simp [mstep, h2, appIds] at hi
            · have := ih (mstep (.consume rs) s).1 hinv' i hi
              rw [mstep] at this
              simp only [] at this
              rw [hl] at this
              exact this
          · rcases hi with hi | hi
            · simp [mstep, h2, appIds] at hi
              omega
            · have := ih (mstep (.consume rs) s).1 hinv' i hi
              rw [mstep] at this
              simp only [] at this
              rw [hl] at this
              omega

/-- Applied ids are strictly increasing along any interleaving. -/
theorem mrun_app_sorted (events : List MEvent) (s : MailboxState)
    (hinv : MailboxInv s) :
    List.Pairwise (· < ·) (appIds (mrun events s).2) := by
  induction events generalizing s with
  | nil => simp [mrun, appIds]
  | cons e rest ih =>
      rw [mrun]
      simp only [appIds, List.filterMap_append]
      have hinv' := mstep_inv e s hinv
      cases e with
      | publish rgba w h =>
          simpa [mstep, appIds] using ih _ hinv'
      | consume rs =>
          have hc := consume_frame_cases rs s
          rcases hc.2 with ⟨h2, -⟩ | ⟨h2, hgt, hl⟩
          · simp only [mstep, h2]
            simpa [appIds] using ih _ hinv'
          · simp only [mstep, h2]
            rw [List.pairwise_append]
            refine ⟨by simp [appIds], ih _ hinv', ?_⟩
            intro a ha b hb
            simp [appIds] at ha
            subst ha
            have := mrun_app_lb rest (mstep (.consume rs) s).1 hinv' b hb
            rw [mstep] at this
            simp only [] at this
            rw [hl] at this
            exact this

/-- C3: the finished-frame slot's monotonic id is strictly increasing
across successive worker publishes, the consumer never applies a frame
whose id is at or below the last consumed id, and applied ids are
strictly increasing under any interleaving of publishes and per-tick
drains from the initial state. -/
theorem frame_slot_monotonic_spec :
    (∀ events : List MEvent,
      List.Pairwise (· < ·) (pubIds (mrun events initMailbox).2)) ∧
    (∀ events : List MEvent,
      List.Pairwise (· < ·) (appIds (mrun events initMailbox).2)) ∧
    (∀ (rs : ℕ × ℕ) (s : MailboxState) (i : ℕ),
      (consume_frame rs s).2 = some i → s.last_consumed_id < i) := by
  refine ⟨fun events => mrun_pub_sorted events initMailbox,
    fun events => mrun_app_sorted events initMailbox (by constructor <;> decide),
    ?_⟩
  intro rs s i hsome
  rcases (consume_frame_cases rs s).2 with ⟨h2, -⟩ | ⟨h2, hgt, -⟩
  · rw [h2] at hsome
    exact absurd hsome (Option.noConfusion)
  · rw [h2] at hsome
    rw [Option.some_inj] at hsome
    omega

/-- Witness for `frame_slot_monotonic_spec` on a concrete interleaving
(publish, drain, publish, publish, drain). -/
theorem frame_slot_monotonic_spec_witness :
    List.Pairwise (· < ·) (pubIds (mrun
      [MEvent.publish [1] 2 2, MEvent.consume (2, 2), MEvent.publish [2] 2 2,
       MEvent.publish [3] 2 2, MEvent.consume (2, 2)] initMailbox).2) ∧
    List.Pairwise (· < ·) (appIds (mrun
      [MEvent.publish [1] 2 2, MEvent.consume (2, 2), MEvent.publish [2] 2 2,
       MEvent.publish [3] 2 2, MEvent.consume (2, 2)] initMailbox).2) ∧
    (0 : ℕ) < 1 :=
  ⟨frame_slot_monotonic_spec.1 _, frame_slot_monotonic_spec.2.1 _,
    frame_slot_monotonic_spec.2.2 (2, 2) ⟨⟨[1], 2, 2, 1, true⟩, 2, 0⟩ 1
      (by decide)⟩


/-! ## Worker wake-up: `_worker_loop` wait predicate and job posting

The job-request flags live behind `job_mutex`; the worker blocks on
`job_cv.wait(lk, [this]{ return worker_stop || load_pending || render_pending; })`.
A condition-variable notification only releases the wait when that
predicate is true. -/

/-- The job-request flags guarded by `job_mutex`. -/
structure JobFlags where
  worker_stop : Bool
  load_pending : Bool
  render_pending : Bool
  segment_pending : Bool
  pending_segment_begin : ℚ
  pending_segment_end : ℚ
  deriving DecidableEq, Repr

/-- The `_worker_loop` wait predicate: the worker stays blocked while
this is false, regardless of notifications. -/
def worker_wake_condition (j : JobFlags) : Bool :=
  j.worker_stop || j.load_pending || j.render_pending

/-- `_post_segment_to_worker(begin, end)`: record the range, set
`segment_pending`, notify the condition variable. -/
def post_segment_to_worker (b e : ℚ) (j : JobFlags) : JobFlags :=
  { j with pending_segment_begin := b, pending_segment_end := e,
           segment_pending := true }

/-- C2 (code bug): posting a segment request alone does **not** wake the
blocked worker.  After `_post_segment_to_worker(10, 40)` on an idle flag
state the segment is pending, yet the `_worker_loop` wait predicate —
which omits `segment_pending` — is still false, so the notification
finds the predicate false and the worker stays blocked; the spec's
"block until stop, load, segment, or render is pending" requires it to
be true. -/
theorem worker_wake_omits_segment :
    (post_segment_to_worker 10 40
        ⟨false, false, false, false, 0, 0⟩).segment_pending = true ∧
    worker_wake_condition
        (post_segment_to_worker 10 40 ⟨false, false, false, false, 0, 0⟩)
      = false ∧
    (∀ j : JobFlags, worker_wake_condition j =
      (j.worker_stop || j.load_pending || j.render_pending)) :=
  ⟨rfl, rfl, fun _ => rfl⟩

/-! ## Load failure surfacing: `_load_animation`

The branch structure of `_load_animation` over the outcomes of its
external calls (file lookup, dotLottie extraction, ThorVG picture `load`,
canvas `push`).  `animation_loaded(false)` is emitted **only** on the
dotLottie extraction-failure path; a direct picture-load failure returns
`false` with no notification at all. -/

/-- The external outcomes `_load_animation` branches on, in source
order: empty path, canvas missing, `tvg::Animation::gen()->picture()`
null, `.lottie` extraction, direct `picture->load`, mirror-to-cache and
retry, `canvas->push`. -/
structure LoadEnv where
  path_empty : Bool
  canvas_ok : Bool
  picture_gen_ok : Bool
  is_lottie : Bool
  extract_ok : Bool
  direct_load_ok : Bool
  mirror_ok : Bool
  mirror_load_ok : Bool
  push_ok : Bool
  deriving DecidableEq, Repr

/-- What the node displays when the call returns: the untouched previous
content, the cleared (transparent) target, or the freshly loaded
scene. -/
inductive Display where
  | previous
  | cleared
  | newScene
  deriving DecidableEq, Repr

/-- `_load_animation`: success flag, emitted signals, and resulting
displayable state.  An existing picture is removed and the buffer/image
zeroed before anything can fail (`disp`). -/
def load_animation (env : LoadEnv) (had_picture : Bool) :
    Bool × List Signal × Display :=
  if env.path_empty = true then (false, [], Display.previous)
  else if env.canvas_ok = false then (false, [], Display.previous)
  else
    let disp := if had_picture then Display.cleared else Display.previous
    if env.picture_gen_ok = false then (false, [], disp)
    else if env.is_lottie = true ∧ env.extract_ok = false then
      (false, [Signal.animation_loaded false], disp)
    else if (env.direct_load_ok || (env.mirror_ok && env.mirror_load_ok)) = false then
      (false, [], disp)
    else if env.push_ok = false then (false, [], disp)
    else (true, [Signal.animation_loaded true], Display.newScene)

/-- C1 (counterexample): a plain (non-`.lottie`) scene file that the
ThorVG picture loader rejects makes `_load_animation` return `false`
with **no** emitted signal at all — in particular no
`animation_loaded(false)` — contradicting the claim that every failed
load emits the notification. -/
theorem load_failure_no_signal_counterexample :
    (load_animation ⟨false, true, true, false, true, false, false, false, true⟩
        false).1 = false ∧
    (load_animation ⟨false, true, true, false, true, false, false, false, true⟩
        false).2.1 = [] ∧
    Signal.animation_loaded false ∉
      (load_animation ⟨false, true, true, false, true, false, false, false, true⟩
        false).2.1 := by
  refine ⟨rfl, rfl, ?_⟩
  intro h
  rw [show (load_animation
      ⟨false, true, true, false, true, false, false, false, true⟩ false).2.1 = []
    from rfl] at h
  exact List.not_mem_nil _ h

/-- C1 (amended): when the underlying picture load fails (direct load
and mirrored retry both fail), `_load_animation` returns `false`,
emits no notification, and leaves the object in its previous, or
cleared/empty, displayable state; `animation_loaded(false)` is emitted
only on the `.lottie` extraction-failure path, which likewise returns
`false` with the previous-or-empty display. -/
theorem load_failure_spec :
    (∀ (env : LoadEnv) (had : Bool),
      env.path_empty = false → env.canvas_ok = true →
      env.picture_gen_ok = true →
      (env.is_lottie = true → env.extract_ok = true) →
      (env.direct_load_ok || (env.mirror_ok && env.mirror_load_ok)) = false →
      (load_animation env had).1 = false ∧
      (load_animation env had).2.1 = [] ∧
      ((load_animation env had).2.2 = Display.previous ∨
       (load_animation env had).2.2 = Display.cleared)) ∧
    (∀ (env : LoadEnv) (had : Bool),
      env.path_empty = false → env.canvas_ok = true →
      env.picture_gen_ok = true → env.is_lottie = true → env.extract_ok = false →
      (load_animation env had).1 = false ∧
      (load_animation env had).2.1 = [Signal.animation_loaded false] ∧
      ((load_animation env had).2.2 = Display.previous ∨
       (load_animation env had).2.2 = Display.cleared)) := by
  constructor <;> intro env had h1 h2 h3 h4 h5
  · have hni : ¬(env.is_lottie = true ∧ env.extract_ok = false) := by
      rintro ⟨ha, hb⟩
      rw [h4 ha] at hb
      cases hb
    simp only [load_animation, h1, h2, h3, if_neg hni, h5]
    norm_num
    cases had <;> simp
  · simp only [load_animation, h1, h2, h3,
      if_pos (⟨h4, h5⟩ : env.is_lottie = true ∧ env.extract_ok = false)]
    norm_num
    cases had <;> simp

/-- Witness for `load_failure_spec`: a failed direct load with a
previous scene on display, and a failed `.lottie` extraction. -/
theorem load_failure_spec_witness :
    ((load_animation ⟨false, true, true, false, true, false, true, false, true⟩
        true).1 = false ∧
      (load_animation ⟨false, true, true, false, true, false, true, false, true⟩
        true).2.1 = [] ∧
      ((load_animation ⟨false, true, true, false, true, false, true, false, true⟩
          true).2.2 = Display.previous ∨
       (load_animation ⟨false, true, true, false, true, false, true, false, true⟩
          true).2.2 = Display.cleared)) ∧
    ((load_animation ⟨false, true, true, true, false, true, true, true, true⟩
        false).1 = false ∧
      (load_animation ⟨false, true, true, true, false, true, true, true, true⟩
        false).2.1 = [Signal.animation_loaded false] ∧
      ((load_animation ⟨false, true, true, true, false, true, true, true, true⟩
          false).2.2 = Display.previous ∨
       (load_animation ⟨false, true, true, true, false, true, true, true, true⟩
          false).2.2 = Display.cleared)) :=
  ⟨load_failure_spec.1 ⟨false, true, true, false, true, false, true, false, true⟩
      true rfl rfl rfl (fun h => by cases h) rfl,
    load_failure_spec.2 ⟨false, true, true, true, false, true, true, true, true⟩
      false rfl rfl rfl rfl rfl⟩

/-! ## Alpha-border bleed: `_fix_alpha_border_rgba`

The source takes an RGB snapshot (`rgb_copy`) of the whole image, then
walks the interior pixels in raster order; for each fully transparent
pixel it scans the 8 neighbors in a fixed order, testing alpha on the
live buffer but copying RGB from the snapshot, and writes only the RGB
of the current pixel.  The imperative pass is modelled as a left fold of
single-pixel steps over the raster-ordered coordinate list and proved
equal to the pointwise snapshot semantics. -/

/-- An RGBA image as a function from pixel coordinates `(x, y)`. -/
def Img : Type := ℕ × ℕ → Pix

/-- The 8 neighbors of an interior pixel in the fixed scan order of the
source loops (`dy` outer from -1 to 1, `dx` inner, skipping `(0,0)`). -/
def neighbors (c : ℕ × ℕ) : List (ℕ × ℕ) :=
  [(c.1 - 1, c.2 - 1), (c.1, c.2 - 1), (c.1 + 1, c.2 - 1),
   (c.1 - 1, c.2), (c.1 + 1, c.2),
   (c.1 - 1, c.2 + 1), (c.1, c.2 + 1), (c.1 + 1, c.2 + 1)]

/-- The per-pixel result of the border fix read against the snapshot:
a pixel with nonzero alpha is untouched; a fully transparent pixel takes
the RGB of the first neighbor (scan order) with alpha > 0. -/
def fixPixel (img : Img) (c : ℕ × ℕ) : Pix :=
  let p := img c
  if p.a ≠ 0 then p
  else
    match (neighbors c).find? (fun q => decide (0 < (img q).a)) with
    | some q => { p with r := (img q).r, g := (img q).g, b := (img q).b }
    | none => p

/-- One iteration of the imperative pass on the live buffer: the alpha
tests read the live buffer (`px[3]`, `n[3]`), the copied RGB comes from
the `rgb_copy` snapshot, and only the RGB of the current pixel is
written. -/
def fixStep (snapshot : Img) (buf : Img) (c : ℕ × ℕ) : Img :=
  let p := buf c
  if p.a ≠ 0 then buf
  else
    match (neighbors c).find? (fun q => decide (0 < (buf q).a)) with
    | some q => Function.update buf c
        { p with r := (snapshot q).r, g := (snapshot q).g, b := (snapshot q).b }
    | none => buf

/-- The interior pixels in raster order (`y` from 1 to `h-2` outer, `x`
from 1 to `w-2` inner), the 1-pixel border excluded. -/
def interiorCoords (w h : ℕ) : List (ℕ × ℕ) :=
  ((List.range (h - 2)).map (fun j =>
    (List.range (w - 2)).map (fun i => (i + 1, j + 1)))).flatten

/-- `_fix_alpha_border_rgba`: take the RGB snapshot, then run the
sequential in-place pass over the interior pixels (no-op for
`w ≤ 2 ∨ h ≤ 2`). -/
def fix_alpha_border_rgba (img : Img) (w h : ℕ) : Img :=
  if w ≤ 2 ∨ h ≤ 2 then img
  else (interiorCoords w h).foldl (fixStep img) img

/-- The pass as the spec describes it: a pointwise function of the
original image, each interior pixel fixed independently against the
snapshot. -/
def fix_alpha_border_snapshot (img : Img) (w h : ℕ) : Img :=
  if w ≤ 2 ∨ h ≤ 2 then img
  else fun c =>
    if 1 ≤ c.1 ∧ c.1 ≤ w - 2 ∧ 1 ≤ c.2 ∧ c.2 ≤ h - 2 then fixPixel img c
    else img c

/-- The border fix never changes an alpha value. -/
theorem fixPixel_alpha (img : Img) (c : ℕ × ℕ) :
    (fixPixel img c).a = (img c).a := by
  simp only [fixPixel]
  split
  · rfl
  · split <;> rfl

/-- A pixel with nonzero alpha is untouched. -/
theorem fixPixel_of_opaque (img : Img) (c : ℕ × ℕ) (h : (img c).a ≠ 0) :
    fixPixel img c = img c := by
  simp only [fixPixel]
  rw [if_pos h]

/-- The neighbor search depends only on alphas, which the pass never
modifies. -/
theorem find?_alpha_congr (img buf : Img)
    (halpha : ∀ q, (buf q).a = (img q).a) (l : List (ℕ × ℕ)) :
    l.find? (fun q => decide (0 < (buf q).a)) =
      l.find? (fun q => decide (0 < (img q).a)) := by
  have hfun : (fun q => decide (0 < (buf q).a)) =
      (fun q => decide (0 < (img q).a)) := by
    funext q
    rw [halpha q]
  rw [hfun]

/-- A step writes only the pixel it processes. -/
theorem fixStep_ne (img buf : Img) {c c' : ℕ × ℕ} (h : c ≠ c') :
    fixStep img buf c' c = buf c := by
  simp only [fixStep]
  split
  · rfl
  · rcases hfind : (neighbors c').find? (fun q => decide (0 < (buf q).a)) with - | q
    · rfl
    · exact Function.update_noteq h _ _

/-- Processing a pixel on a buffer that differs from the snapshot only
by already-fixed pixels produces exactly the snapshot-semantics result:
writes of earlier pixels never leak into later ones because alphas are
unchanged and RGB is read from the snapshot. -/
theorem fixStep_self (img buf : Img) (c : ℕ × ℕ)
    (halpha : ∀ q, (buf q).a = (img q).a)
    (hc : buf c = img c ∨ buf c = fixPixel img c) :
    fixStep img buf c c = fixPixel img c := by
  by_cases ha : (buf c).a ≠ 0
  · have hai : (img c).a ≠ 0 := by rw [← halpha c]; exact ha
    have h1 : fixStep img buf c c = buf c := by
      simp only [fixStep]
      rw [if_pos ha]
    rw [h1, fixPixel_of_opaque img c hai]
    rcases hc with h | h
    · exact h
    · rw [h, fixPixel_of_opaque img c hai]
  · push_neg at ha
    have hai : (img c).a = 0 := by rw [← halpha c]; exact ha
    have hnota : ¬(buf c).a ≠ 0 := by rw [ha]; exact fun hh => hh rfl
    have hnotai : ¬(img c).a ≠ 0 := by rw [hai]; exact fun hh => hh rfl
    rcases hfind : (neighbors c).find? (fun q => decide (0 < (img q).a)) with - | q
    · have hfb : (neighbors c).find? (fun q => decide (0 < (buf q).a)) = none := by
        rw [find?_alpha_congr img buf halpha]
        exact hfind
      have h1 : fixStep img buf c c = buf c := by
        simp only [fixStep]
        rw [if_neg hnota, hfb]
      have h2 : fixPixel img c = img c := by
        simp only [fixPixel]
        rw [if_neg hnotai, hfind]
      rw [h1, h2]
      rcases hc with h | h
      · exact h
      · rw [h, h2]
    · have hfb : (neighbors c).find? (fun q => decide (0 < (buf q).a)) = some q := by
        rw [find?_alpha_congr img buf halpha]
        exact hfind
      have h1 : fixStep img buf c c =
          Pix.mk (img q).r (img q).g (img q).b (buf c).a := by
        simp only [fixStep]
        rw [if_neg hnota, hfb]
        exact Function.update_same c _ buf
      have h2 : fixPixel img c =
          Pix.mk (img q).r (img q).g (img q).b (img c).a := by
        simp only [fixPixel]
        rw [if_neg hnotai, hfind]
      rw [h1, h2, halpha c]

/-- A step preserves the "every pixel is original or fixed"
invariant. -/
theorem fixStep_inv (img buf : Img) (c : ℕ × ℕ)
    (hbuf : ∀ q, buf q = img q ∨ buf q = fixPixel img q) :
    ∀ q, fixStep img buf c q = img q ∨ fixStep img buf c q = fixPixel img q := by
  have halpha : ∀ q, (buf q).a = (img q).a := by
    intro q
    rcases hbuf q with h | h
    · rw [h]
    · rw [h, fixPixel_alpha]
  intro q
  by_cases hq : q = c
  · subst hq
    exact Or.inr (fixStep_self img buf q halpha (hbuf q))
  · rw [fixStep_ne img buf hq]
    exact hbuf q

/-- The sequential pass computes, at every processed coordinate, the
pure snapshot-semantics result, and leaves every other pixel alone. -/
theorem foldl_fixStep_char (img : Img) (cs : List (ℕ × ℕ)) :
    ∀ buf : Img, (∀ q, buf q = img q ∨ buf q = fixPixel img q) →
    ∀ c, (cs.foldl (fixStep img) buf) c =
      if c ∈ cs then fixPixel img c else buf c := by
  induction cs with
  | nil =>
      intro buf _ c
      simp
  | cons c' rest ih =>
      intro buf hbuf c
      have halpha : ∀ q, (buf q).a = (img q).a := by
        intro q
        rcases hbuf q with h | h
        · rw [h]
        · rw [h, fixPixel_alpha]
      have hself := fixStep_self img buf c' halpha (hbuf c')
      rw [List.foldl_cons, ih (fixStep img buf c') (fixStep_inv img buf c' hbuf) c]
      by_cases hin : c ∈ rest
      · rw [if_pos hin, if_pos (List.mem_cons_of_mem c' hin)]
      · rw [if_neg hin]
        by_cases hcc : c = c'
        · subst hcc
          rw [if_pos (List.mem_cons_self c rest), hself]
        · rw [if_neg (by
            intro hmem
            rcases List.mem_cons.mp hmem with h | h
            · exact hcc h
            · exact hin h)]
          exact fixStep_ne img buf hcc

/-- Membership in the raster-order interior list. -/
theorem mem_interiorCoords {w h : ℕ} {c : ℕ × ℕ} :
    c ∈ interiorCoords w h ↔
      1 ≤ c.1 ∧ c.1 ≤ w - 2 ∧ 1 ≤ c.2 ∧ c.2 ≤ h - 2 := by
  obtain ⟨x, y⟩ := c
  simp only [interiorCoords, List.mem_flatten, List.mem_map, List.mem_range]
  constructor
  · rintro ⟨l, ⟨j, hj, rfl⟩, hx⟩
    simp only [List.mem_map, List.mem_range, Prod.mk.injEq] at hx
    obtain ⟨i, hi, rfl, rfl⟩ := hx
    omega
  · rintro ⟨h1, h2, h3, h4⟩
    refine ⟨(List.range (w - 2)).map (fun i => (i + 1, y - 1 + 1)),
      ⟨y - 1, by omega, rfl⟩, ?_⟩
    simp only [List.mem_map, List.mem_range, Prod.mk.injEq]
    exact ⟨x - 1, by omega, by omega, by omega⟩

/-- C7: the imperative single pass of `_fix_alpha_border_rgba` (live
alpha reads, snapshot RGB reads, in-place RGB writes) is extensionally
the pointwise snapshot-semantics pass — so values written during the
pass never cascade into later pixels; it never modifies any alpha, never
modifies a pixel whose alpha is nonzero, and leaves the 1-pixel border
(and everything, for `w ≤ 2` or `h ≤ 2`) untouched; each interior
transparent pixel takes the snapshot RGB of its first opaque neighbor in
the fixed scan order (by definition of `fixPixel`). -/
theorem fix_alpha_border_correct (img : Img) (w h : ℕ) :
    (∀ c, fix_alpha_border_rgba img w h c = fix_alpha_border_snapshot img w h c) ∧
    (∀ c, (fix_alpha_border_rgba img w h c).a = (img c).a) ∧
    (∀ c, (img c).a ≠ 0 → fix_alpha_border_rgba img w h c = img c) ∧
    (∀ c, ¬(1 ≤ c.1 ∧ c.1 ≤ w - 2 ∧ 1 ≤ c.2 ∧ c.2 ≤ h - 2) →
      fix_alpha_border_rgba img w h c = img c) := by
  have hchar : ∀ c, fix_alpha_border_rgba img w h c =
      if 1 ≤ c.1 ∧ c.1 ≤ w - 2 ∧ 1 ≤ c.2 ∧ c.2 ≤ h - 2 then fixPixel img c
      else img c := by
    intro c
    rw [fix_alpha_border_rgba]
    split
    · rename_i hguard
      have : ¬(1 ≤ c.1 ∧ c.1 ≤ w - 2 ∧ 1 ≤ c.2 ∧ c.2 ≤ h - 2) := by
        rcases hguard with hg | hg <;> (intro hc; omega)
      rw [if_neg this]
    · rw [foldl_fixStep_char img (interiorCoords w h) img (fun q => Or.inl rfl) c]
      by_cases hin : c ∈ interiorCoords w h
      · rw [if_pos hin, if_pos (mem_interiorCoords.mp hin)]
      · rw [if_neg hin, if_neg (fun hc => hin (mem_interiorCoords.mpr hc))]
  have hsnap : ∀ c, fix_alpha_border_snapshot img w h c =
      if 1 ≤ c.1 ∧ c.1 ≤ w - 2 ∧ 1 ≤ c.2 ∧ c.2 ≤ h - 2 then fixPixel img c
      else img c := by
    intro c
    rw [fix_alpha_border_snapshot]
    split
    · rename_i hguard
      have : ¬(1 ≤ c.1 ∧ c.1 ≤ w - 2 ∧ 1 ≤ c.2 ∧ c.2 ≤ h - 2) := by
        rcases hguard with hg | hg <;> (intro hc; omega)
      rw [if_neg this]
    · rfl
  refine ⟨fun c => by rw [hchar c, hsnap c], fun c => ?_, fun c hc => ?_, fun c hc => ?_⟩
  · rw [hchar c]
    split
    · exact fixPixel_alpha img c
    · rfl
  · rw [hchar c]
    split
    · exact fixPixel_of_opaque img c hc
    · rfl
  · rw [hchar c, if_neg hc]

/-- A small test image: a fully transparent 2-pixel diagonal region
inside an opaque field. -/
def testImg : Img := fun c =>
  if c = (1, 1) ∨ c = (2, 2) then ⟨0, 0, 0, 0⟩ else ⟨9, 8, 7, 5⟩

/-- Witness for `fix_alpha_border_correct` on `testImg` (4×4): an opaque
interior pixel and a border pixel are untouched, and the transparent
pixel keeps its alpha and matches the snapshot semantics. -/
theorem fix_alpha_border_correct_witness :
    fix_alpha_border_rgba testImg 4 4 (2, 1) = testImg (2, 1) ∧
    fix_alpha_border_rgba testImg 4 4 (0, 1) = testImg (0, 1) ∧
    (fix_alpha_border_rgba testImg 4 4 (1, 1)).a = (testImg (1, 1)).a ∧
    fix_alpha_border_rgba testImg 4 4 (1, 1) =
      fix_alpha_border_snapshot testImg 4 4 (1, 1) :=
  ⟨(fix_alpha_border_correct testImg 4 4).2.2.1 (2, 1) (by decide),
   (fix_alpha_border_correct testImg 4 4).2.2.2 (0, 1) (by decide),
   (fix_alpha_border_correct testImg 4 4).2.1 (1, 1),
   (fix_alpha_border_correct testImg 4 4).1 (1, 1)⟩


end Lottie
